import Mathlib

/-!
Verification of the paintmixr utility scripts.

Part 1 models `src/fix-syntax.py`: the nested block-comment scanner and the
line-comment reformatter.  Buffers are `List Char`; the Python index loops
become recursion (with an explicit fuel argument mirroring the loop counter
`i`, which advances by at least one position per outer iteration, so
`content.length` fuel always suffices).

Part 2 models `src/scripts/compare-duplication-reports.py`: report metric
extraction and comparison.  Python float arithmetic is modelled as exact
rational arithmetic over `ℚ`.
-/

namespace FixSyntax

/-- The set of characters stripped by Python `str.strip()` / `str.lstrip()`
(ASCII whitespace: space, tab, newline, carriage return, vertical tab,
form feed). -/
def isPySpace (c : Char) : Bool :=
  c = ' ' || c = '\t' || c = '\n' || c = '\r' || c = '\x0b' || c = '\x0c'

/-- Python `line.lstrip()`: drop leading whitespace. -/
def lstrip (l : List Char) : List Char := l.dropWhile isPySpace

/-- Python `line.strip()`: drop leading and trailing whitespace. -/
def pyStrip (l : List Char) : List Char :=
  ((l.dropWhile isPySpace).reverse.dropWhile isPySpace).reverse

/-- `line[:len(line) - len(line.lstrip())]`: the leading-whitespace indent of
a line. -/
def indentOf (l : List Char) : List Char := l.takeWhile isPySpace

/-- Python `s.split('\n')`: split a buffer into lines at newline characters.
The empty buffer yields one empty line, matching `"".split('\n') == ['']`. -/
def splitNL : List Char → List (List Char)
  | [] => [[]]
  | c :: rest =>
    if c = '\n' then [] :: splitNL rest
    else
      match splitNL rest with
      | h :: t => (c :: h) :: t
      | [] => [[c]]

/-- Python `'\n'.join(lines)`. -/
def joinNL : List (List Char) → List Char
  | [] => []
  | [l] => l
  | l :: ls => l ++ '\n' :: joinNL ls

/-- The literal banner line text inserted by `replace_block`
(`"// DISABLED: Implementation pending"`). -/
def bannerChars : List Char := ("// DISABLED: Implementation pending").data

/-- One iteration of the `for line in lines` loop of `replace_block` in
`src/fix-syntax.py` (lines 19-29): a line with non-whitespace content becomes
`indent + "// " + stripped`; empty and whitespace-only lines are kept. -/
def fixLine (line : List Char) : List Char :=
  if (pyStrip line).isEmpty then line
  else
    let stripped := lstrip line
    if stripped.isEmpty then line
    else indentOf line ++ '/' :: '/' :: ' ' :: stripped

/-- `replace_block` of `src/fix-syntax.py` (lines 13-37): split the region
interior into lines, convert each line, then insert the banner line at the
front of the list, indented with the leading whitespace of the first
converted line (`fixed_lines[0]`), and join with newlines. -/
def replaceBlock (interior : List Char) : List Char :=
  let fixedLines := (splitNL interior).map fixLine
  match fixedLines with
  | [] => joinNL []
  | first :: rest => joinNL ((indentOf first ++ bannerChars) :: first :: rest)

/-- The inner scanning loop of `fix_multiline_comments` (lines 47-56):
starting just after an open marker with nesting depth `d ≥ 1`, consume the
buffer two-character-greedily, incrementing the depth at `/*` and
decrementing it at `*/`.  Returns `some (interior, rest)` where `interior`
is the text strictly before the close marker that returns the depth to zero
and `rest` is the text after that close marker, or `none` when the buffer
ends (fewer than two characters remain) with positive depth. -/
def findClose : List Char → Nat → Option (List Char × List Char)
  | c1 :: c2 :: rest, d =>
    if c1 = '/' ∧ c2 = '*' then
      match findClose rest (d + 1) with
      | some (i, a) => some (c1 :: c2 :: i, a)
      | none => none
    else if c1 = '*' ∧ c2 = '/' then
      if d = 1 then some ([], rest)
      else
        match findClose rest (d - 1) with
        | some (i, a) => some (c1 :: c2 :: i, a)
        | none => none
    else
      match findClose (c2 :: rest) d with
      | some (i, a) => some (c1 :: i, a)
      | none => none
  | [_], _ => none
  | [], _ => none

/-- The outer loop of `fix_multiline_comments` (lines 41-70), with explicit
fuel bounding the number of iterations; the scan position advances by at
least one character per iteration, so fuel `content.length` is always
enough (when the fuel runs out the remaining text, always empty in actual
use, is copied verbatim).  At `/*` with a complete region the region is
replaced by `replaceBlock` of its interior and scanning resumes after the
close marker; at `/*` with no matching close only the `/` is emitted and
scanning resumes at the next position; all other characters are copied. -/
def fixMLAux : Nat → List Char → List Char
  | 0, l => l
  | _ + 1, [] => []
  | _ + 1, [c] => [c]
  | fuel + 1, c1 :: c2 :: rest =>
    if c1 = '/' ∧ c2 = '*' then
      match findClose rest 1 with
      | some (i, a) => replaceBlock i ++ fixMLAux fuel a
      | none => c1 :: fixMLAux fuel (c2 :: rest)
    else c1 :: fixMLAux fuel (c2 :: rest)

/-- `fix_multiline_comments` of `src/fix-syntax.py` (lines 9-72). -/
def fixMultilineComments (content : List Char) : List Char :=
  fixMLAux content.length content

/-- The search performed by the lazy regex tail `.*?\*/` of `fix_file`
(line 83): find the first occurrence of `*/`, returning the text before and
after it. -/
def splitAtFirstClose : List Char → Option (List Char × List Char)
  | c1 :: c2 :: rest =>
    if c1 = '*' ∧ c2 = '/' then some ([], rest)
    else
      match splitAtFirstClose (c2 :: rest) with
      | some (b, a) => some (c1 :: b, a)
      | none => none
  | [_] => none
  | [] => none

/-- The header match `re.match(r'^(/\*\*.*?\*/)', content, re.DOTALL)` of
`fix_file` (lines 83-86): when the buffer starts with `/**` and a `*/`
occurs after those three characters, return the header (up to and including
the first such `*/`) and the remaining text. -/
def headerSplit (content : List Char) : Option (List Char × List Char) :=
  match content with
  | c1 :: c2 :: c3 :: rest =>
    if c1 = '/' ∧ c2 = '*' ∧ c3 = '*' then
      match splitAtFirstClose rest with
      | some (b, a) => some (c1 :: c2 :: c3 :: b ++ ['*', '/'], a)
      | none => none
    else none
  | _ => none

/-- The content transformation of `fix_file` (lines 82-89): copy the header
verbatim when the header regex matches and rewrite only the rest; otherwise
rewrite the whole buffer. -/
def fixFileContent (content : List Char) : List Char :=
  match headerSplit content with
  | some (header, rest) => header ++ fixMultilineComments rest
  | none => fixMultilineComments content

/-- Two-character greedy marker tokens, used to state the specification of
the depth-counting scan: `/*`, `*/`, or a single plain character. -/
inductive Tok where
  | op : Tok
  | cl : Tok
  | ch : Char → Tok
deriving DecidableEq

/-- Greedy left-to-right tokenization of a buffer into marker tokens and
plain characters, consuming the first applicable token at each position. -/
def tokens : List Char → List Tok
  | c1 :: c2 :: rest =>
    if c1 = '/' ∧ c2 = '*' then Tok.op :: tokens rest
    else if c1 = '*' ∧ c2 = '/' then Tok.cl :: tokens rest
    else Tok.ch c1 :: tokens (c2 :: rest)
  | [c] => [Tok.ch c]
  | [] => []

/-- Number of open markers in a token list. -/
def opens : List Tok → Nat
  | [] => 0
  | Tok.op :: ts => opens ts + 1
  | _ :: ts => opens ts

/-- Number of close markers in a token list. -/
def closes : List Tok → Nat
  | [] => 0
  | Tok.cl :: ts => closes ts + 1
  | _ :: ts => closes ts

/-- Specification-side well-formedness of a region interior: scanning the
interior with a depth counter that starts at 1 after the outer open marker,
increments at each `/*` and decrements at each `*/`, the depth never returns
to zero strictly inside the interior, and it is exactly 1 at the end of the
interior, so that the close marker that follows is the one returning the
depth to zero. -/
def WellFormedInterior (i : List Char) : Prop :=
  opens (tokens i) = closes (tokens i) ∧
    ∀ p q, tokens i = p ++ q → closes p ≤ opens p

/-- Specification-side check that a depth counter starting at `d` stays
positive over a token list (never returns to zero). -/
def minDepthPos : List Tok → Nat → Bool
  | [], _ => true
  | Tok.op :: ts, d => minDepthPos ts (d + 1)
  | Tok.cl :: ts, d => decide (1 < d) && minDepthPos ts (d - 1)
  | Tok.ch _ :: ts, d => minDepthPos ts d

/-- Specification-side test for an unterminated region: after an open
marker, the depth counter (starting at 1) never returns to zero before the
end of the buffer. -/
def neverClosesB (l : List Char) : Bool := minDepthPos (tokens l) 1

/-- Whether a buffer contains an occurrence of the two-character open marker
`/*` (scanning every position, so overlapping occurrences count). -/
def hasOpenMarker : List Char → Bool
  | c1 :: c2 :: rest => (c1 = '/' && c2 = '*') || hasOpenMarker (c2 :: rest)
  | _ => false

/-- A segment of the rewrite decomposition: either a single literal
character copied verbatim, or a well-formed comment region given by its
interior. -/
inductive Seg where
  | lit : Char → Seg
  | region : List Char → Seg

/-- The original text of a segment: a literal character is itself; a region
is its interior wrapped in the open and close markers. -/
def segOrig : Seg → List Char
  | Seg.lit c => [c]
  | Seg.region i => '/' :: '*' :: i ++ '*' :: '/' :: []

/-- The rewritten text of a segment: a literal character is copied; a region
is replaced by its line-comment rewriting. -/
def segOut : Seg → List Char
  | Seg.lit c => [c]
  | Seg.region i => replaceBlock i

/-- Concatenated original text of a segment list. -/
def flattenOrig : List Seg → List Char
  | [] => []
  | s :: ss => segOrig s ++ flattenOrig ss

/-- Concatenated rewritten text of a segment list. -/
def flattenOut : List Seg → List Char
  | [] => []
  | s :: ss => segOut s ++ flattenOut ss

/-- Validity of a rewrite decomposition: every region interior is
well-formed, and every literal open marker (a literal `/` followed in the
original text by `*`) starts an unterminated region, so no well-formed
region is left unreplaced. -/
def SegsOk : List Seg → Prop
  | [] => True
  | Seg.region i :: rest => WellFormedInterior i ∧ SegsOk rest
  | Seg.lit c :: rest =>
    (∀ c2 t, flattenOrig rest = c2 :: t → c = '/' → c2 = '*' →
      minDepthPos (tokens t) 1 = true) ∧ SegsOk rest

/-- The decomposition of a buffer into literal characters and well-formed
regions, following the scan of `fix_multiline_comments` step by step. -/
def segmentsAux : Nat → List Char → List Seg
  | 0, l => l.map Seg.lit
  | _ + 1, [] => []
  | _ + 1, [c] => [Seg.lit c]
  | fuel + 1, c1 :: c2 :: rest =>
    if c1 = '/' ∧ c2 = '*' then
      match findClose rest 1 with
      | some (i, a) => Seg.region i :: segmentsAux fuel a
      | none => Seg.lit c1 :: segmentsAux fuel (c2 :: rest)
    else Seg.lit c1 :: segmentsAux fuel (c2 :: rest)

/-- The rewrite decomposition of a buffer. -/
def segments (l : List Char) : List Seg := segmentsAux l.length l

end FixSyntax

namespace CompareReports

/-- The `total` sub-object of one format entry of a jscpd report
(`statistics.formats.<name>.total`), with the five fields read by
`extract_metrics`; absent fields default to 0 as with `dict.get(_, 0)`. -/
structure FormatTotal where
  lines : Nat
  tokens : Nat
  duplicatedLines : Nat
  duplicatedTokens : Nat
  clones : Nat

/-- A jscpd report as consumed by `extract_metrics`: the list of format
entries of `statistics.formats`, where `none` models a format entry without
a `total` sub-object (which contributes nothing to the sums). -/
structure Report where
  formats : List (Option FormatTotal)

/-- The record produced by `extract_metrics` (lines 44-52 of
`src/scripts/compare-duplication-reports.py`).  Percentage fields are exact
rationals modelling the Python float arithmetic. -/
structure Metrics where
  total_lines : Nat
  total_tokens : Nat
  duplicated_lines : Nat
  duplicated_tokens : Nat
  total_clones : Nat
  line_duplication_pct : ℚ
  token_duplication_pct : ℚ

/-- Accumulator of the summation loop of `extract_metrics` (lines 25-38). -/
structure Totals where
  lines : Nat
  tokens : Nat
  dupLines : Nat
  dupTokens : Nat
  clones : Nat

/-- One iteration of the `for format_name, format_data in ...` loop of
`extract_metrics` (lines 31-38): a format entry with a `total` sub-object
adds its five fields to the running sums; an entry without one is skipped. -/
def addFormat (acc : Totals) (fd : Option FormatTotal) : Totals :=
  match fd with
  | some t =>
    { lines := acc.lines + t.lines
      tokens := acc.tokens + t.tokens
      dupLines := acc.dupLines + t.duplicatedLines
      dupTokens := acc.dupTokens + t.duplicatedTokens
      clones := acc.clones + t.clones }
  | none => acc

/-- `extract_metrics` of `src/scripts/compare-duplication-reports.py`
(lines 20-52): sum the per-format totals, then compute the duplication
percentages, defined as 0 when the corresponding total is 0. -/
def extract_metrics (report : Report) : Metrics :=
  let tot := report.formats.foldl addFormat ⟨0, 0, 0, 0, 0⟩
  { total_lines := tot.lines
    total_tokens := tot.tokens
    duplicated_lines := tot.dupLines
    duplicated_tokens := tot.dupTokens
    total_clones := tot.clones
    line_duplication_pct :=
      if 0 < tot.lines then (tot.dupLines : ℚ) / (tot.lines : ℚ) * 100 else 0
    token_duplication_pct :=
      if 0 < tot.tokens then (tot.dupTokens : ℚ) / (tot.tokens : ℚ) * 100 else 0 }

/-- The values computed by `compare_metrics` (lines 80-120): reductions,
reduction percentages, percentage-point changes, and the three success
criteria together with their conjunction. -/
structure ComparisonResult where
  line_reduction : Int
  token_reduction : Int
  clone_reduction : Int
  line_reduction_pct : ℚ
  token_reduction_pct : ℚ
  clone_reduction_pct : ℚ
  line_pct_change : ℚ
  token_pct_change : ℚ
  token_pct_pass : Bool
  clones_pass : Bool
  reduction_pass : Bool
  all_pass : Bool

/-- `compare_metrics` of `src/scripts/compare-duplication-reports.py`
(lines 55-127), restricted to the values it computes (the printing is
omitted).  The thresholds are `target_token_pct = 4.5` and
`target_clones = 100`; the reduction criterion is `token_reduction_pct >= 40`. -/
def compare_metrics (baseline final : Metrics) : ComparisonResult :=
  let line_reduction : Int :=
    (baseline.duplicated_lines : Int) - (final.duplicated_lines : Int)
  let token_reduction : Int :=
    (baseline.duplicated_tokens : Int) - (final.duplicated_tokens : Int)
  let clone_reduction : Int :=
    (baseline.total_clones : Int) - (final.total_clones : Int)
  let line_reduction_pct : ℚ :=
    if 0 < baseline.duplicated_lines then
      (line_reduction : ℚ) / (baseline.duplicated_lines : ℚ) * 100
    else 0
  let token_reduction_pct : ℚ :=
    if 0 < baseline.duplicated_tokens then
      (token_reduction : ℚ) / (baseline.duplicated_tokens : ℚ) * 100
    else 0
  let clone_reduction_pct : ℚ :=
    if 0 < baseline.total_clones then
      (clone_reduction : ℚ) / (baseline.total_clones : ℚ) * 100
    else 0
  let token_pct_pass := decide (final.token_duplication_pct ≤ (4.5 : ℚ))
  let clones_pass := decide (final.total_clones ≤ 100)
  let reduction_pass := decide ((40 : ℚ) ≤ token_reduction_pct)
  { line_reduction := line_reduction
    token_reduction := token_reduction
    clone_reduction := clone_reduction
    line_reduction_pct := line_reduction_pct
    token_reduction_pct := token_reduction_pct
    clone_reduction_pct := clone_reduction_pct
    line_pct_change := baseline.line_duplication_pct - final.line_duplication_pct
    token_pct_change := baseline.token_duplication_pct - final.token_duplication_pct
    token_pct_pass := token_pct_pass
    clones_pass := clones_pass
    reduction_pass := reduction_pass
    all_pass := token_pct_pass && clones_pass && reduction_pass }

end CompareReports

namespace FixSyntax

theorem tokens_op (rest : List Char) : tokens ('/' :: '*' :: rest) = Tok.op :: tokens rest := rfl

theorem tokens_cl (rest : List Char) : tokens ('*' :: '/' :: rest) = Tok.cl :: tokens rest := rfl

theorem tokens_ch {c1 c2 : Char} (rest : List Char) (h1 : ¬(c1 = '/' ∧ c2 = '*'))
    (h2 : ¬(c1 = '*' ∧ c2 = '/')) :
    tokens (c1 :: c2 :: rest) = Tok.ch c1 :: tokens (c2 :: rest) := by
  rw [tokens, if_neg h1, if_neg h2]

@[simp] theorem opens_nil : opens [] = 0 := rfl

@[simp] theorem opens_op (ts : List Tok) : opens (Tok.op :: ts) = opens ts + 1 := rfl

@[simp] theorem opens_cl (ts : List Tok) : opens (Tok.cl :: ts) = opens ts := rfl

@[simp] theorem opens_ch (c : Char) (ts : List Tok) : opens (Tok.ch c :: ts) = opens ts := rfl

@[simp] theorem closes_nil : closes [] = 0 := rfl

@[simp] theorem closes_op (ts : List Tok) : closes (Tok.op :: ts) = closes ts := rfl

@[simp] theorem closes_cl (ts : List Tok) : closes (Tok.cl :: ts) = closes ts + 1 := rfl

@[simp] theorem closes_ch (c : Char) (ts : List Tok) : closes (Tok.ch c :: ts) = closes ts := rfl

@[simp] theorem minDepthPos_nil (d : Nat) : minDepthPos [] d = true := rfl

@[simp] theorem minDepthPos_op (ts : List Tok) (d : Nat) :
    minDepthPos (Tok.op :: ts) d = minDepthPos ts (d + 1) := rfl

@[simp] theorem minDepthPos_cl (ts : List Tok) (d : Nat) :
    minDepthPos (Tok.cl :: ts) d = (decide (1 < d) && minDepthPos ts (d - 1)) := rfl

@[simp] theorem minDepthPos_ch (c : Char) (ts : List Tok) (d : Nat) :
    minDepthPos (Tok.ch c :: ts) d = minDepthPos ts d := rfl

/-- Main specification of the inner scanning loop: when `findClose` finds a
matching close marker, the buffer splits into the interior, the close
marker, and the rest; the tokenization splits accordingly; the depth
counter stays positive throughout the interior; and the depth is exactly 1
at the end of the interior. -/
theorem findClose_spec (fuel : Nat) :
    ∀ l d i a, l.length ≤ fuel → 1 ≤ d → findClose l d = some (i, a) →
      l = i ++ '*' :: '/' :: a ∧
      tokens l = tokens i ++ Tok.cl :: tokens a ∧
      (∀ p q, tokens i = p ++ q → closes p + 1 ≤ opens p + d) ∧
      d + opens (tokens i) = closes (tokens i) + 1 := by
  induction fuel with
  | zero =>
    intro l d i a hl _ h
    have hnil : l = [] := List.eq_nil_of_length_eq_zero (Nat.le_zero.mp hl)
    subst hnil
    simp [findClose] at h
  | succ n ih =>
    intro l d i a hl hd h
    cases l with
    | nil => simp [findClose] at h
    | cons c1 l2 =>
      cases l2 with
      | nil => simp [findClose] at h
      | cons c2 rest =>
        have hrest : rest.length ≤ n := by
          simp only [List.length_cons] at hl; omega
        have hrest2 : (c2 :: rest).length ≤ n := by
          simp only [List.length_cons] at hl ⊢; omega
        rw [findClose] at h
        by_cases h1 : c1 = '/' ∧ c2 = '*'
        · rw [if_pos h1] at h
          cases hfc : findClose rest (d + 1) with
          | none => rw [hfc] at h; simp at h
          | some pr =>
            obtain ⟨i2, a2⟩ := pr
            rw [hfc] at h
            simp only [Option.some.injEq, Prod.mk.injEq] at h
            obtain ⟨hi, ha⟩ := h
            subst hi; subst ha
            obtain ⟨hc1, hc2⟩ := h1
            subst hc1; subst hc2
            obtain ⟨hA, hB, hC, hD⟩ := ih rest (d + 1) i2 a2 hrest (by omega) hfc
            refine ⟨?_, ?_, ?_, ?_⟩
            · simp only [List.cons_append]
              exact congrArg (List.cons '/') (congrArg (List.cons '*') hA)
            · rw [tokens_op, tokens_op, hB]; simp
            · intro p q hpq
              rw [tokens_op] at hpq
              cases p with
              | nil => simp; omega
              | cons t p2 =>
                simp only [List.cons_append, List.cons.injEq] at hpq
                obtain ⟨ht, hp2⟩ := hpq
                subst ht
                have hrec := hC p2 q hp2
                simp only [closes_op, opens_op]
                omega
            · rw [tokens_op]
              simp only [opens_op, closes_op]
              omega
        · rw [if_neg h1] at h
          by_cases h2 : c1 = '*' ∧ c2 = '/'
          · rw [if_pos h2] at h
            obtain ⟨hc1, hc2⟩ := h2
            subst hc1; subst hc2
            by_cases hd1 : d = 1
            · rw [if_pos hd1] at h
              simp only [Option.some.injEq, Prod.mk.injEq] at h
              obtain ⟨hi, ha⟩ := h
              subst hi; subst ha; subst hd1
              refine ⟨rfl, by simp [tokens_cl, tokens], ?_, by simp [tokens]⟩
              intro p q hpq
              simp only [tokens] at hpq
              have hp : p = [] := by
                cases p with
                | nil => rfl
                | cons t p2 => simp at hpq
              subst hp
              simp
            · rw [if_neg hd1] at h
              cases hfc : findClose rest (d - 1) with
              | none => rw [hfc] at h; simp at h
              | some pr =>
                obtain ⟨i2, a2⟩ := pr
                rw [hfc] at h
                simp only [Option.some.injEq, Prod.mk.injEq] at h
                obtain ⟨hi, ha⟩ := h
                subst hi; subst ha
                have hd2 : 2 ≤ d := by omega
                obtain ⟨hA, hB, hC, hD⟩ := ih rest (d - 1) i2 a2 hrest (by omega) hfc
                refine ⟨?_, ?_, ?_, ?_⟩
                · simp only [List.cons_append]
                  exact congrArg (List.cons '*') (congrArg (List.cons '/') hA)
                · rw [tokens_cl, tokens_cl, hB]; simp
                · intro p q hpq
                  rw [tokens_cl] at hpq
                  cases p with
                  | nil => simp; omega
                  | cons t p2 =>
                    simp only [List.cons_append, List.cons.injEq] at hpq
                    obtain ⟨ht, hp2⟩ := hpq
                    subst ht
                    have hrec := hC p2 q hp2
                    simp only [closes_cl, opens_cl]
                    omega
                · rw [tokens_cl]
                  simp only [opens_cl, closes_cl]
                  omega
          · rw [if_neg h2] at h
            cases hfc : findClose (c2 :: rest) d with
            | none => rw [hfc] at h; simp at h
            | some pr =>
              obtain ⟨i2, a2⟩ := pr
              rw [hfc] at h
              simp only [Option.some.injEq, Prod.mk.injEq] at h
              obtain ⟨hi, ha⟩ := h
              subst hi; subst ha
              obtain ⟨hA, hB, hC, hD⟩ := ih (c2 :: rest) d i2 a2 hrest2 hd hfc
              have htok : tokens (c1 :: i2) = Tok.ch c1 :: tokens i2 := by
                cases i2 with
                | nil => rfl
                | cons c2x i2t =>
                  have hc2x : c2x = c2 := by
                    have hA2 := hA
                    simp only [List.cons_append, List.cons.injEq] at hA2
                    exact hA2.1.symm
                  subst hc2x
                  exact tokens_ch i2t h1 h2
              refine ⟨?_, ?_, ?_, ?_⟩
              · simp only [List.cons_append]
                exact congrArg (List.cons c1) hA
              · rw [tokens_ch rest h1 h2, htok, hB]; simp
              · intro p q hpq
                rw [htok] at hpq
                cases p with
                | nil => simp; omega
                | cons t p2 =>
                  simp only [List.cons_append, List.cons.injEq] at hpq
                  obtain ⟨ht, hp2⟩ := hpq
                  subst ht
                  have hrec := hC p2 q hp2
                  simp only [closes_ch, opens_ch]
                  omega
              · rw [htok]
                simp only [opens_ch, closes_ch]
                omega

end FixSyntax

namespace FixSyntax

/-- When the inner scanning loop fails, the depth counter starting at `d`
never returns to zero over the buffer. -/
theorem findClose_none_minDepth (fuel : Nat) :
    ∀ l d, l.length ≤ fuel → 1 ≤ d → findClose l d = none →
      minDepthPos (tokens l) d = true := by
  induction fuel with
  | zero =>
    intro l d hl _ _
    have hnil : l = [] := List.eq_nil_of_length_eq_zero (Nat.le_zero.mp hl)
    subst hnil
    simp [tokens]
  | succ n ih =>
    intro l d hl hd h
    cases l with
    | nil => simp [tokens]
    | cons c1 l2 =>
      cases l2 with
      | nil => simp [tokens]
      | cons c2 rest =>
        have hrest : rest.length ≤ n := by
          simp only [List.length_cons] at hl; omega
        have hrest2 : (c2 :: rest).length ≤ n := by
          simp only [List.length_cons] at hl ⊢; omega
        rw [findClose] at h
        by_cases h1 : c1 = '/' ∧ c2 = '*'
        · rw [if_pos h1] at h
          obtain ⟨hc1, hc2⟩ := h1
          subst hc1; subst hc2
          cases hfc : findClose rest (d + 1) with
          | none =>
            rw [tokens_op, minDepthPos_op]
            exact ih rest (d + 1) hrest (by omega) hfc
          | some pr => rw [hfc] at h; obtain ⟨i2, a2⟩ := pr; simp at h
        · rw [if_neg h1] at h
          by_cases h2 : c1 = '*' ∧ c2 = '/'
          · rw [if_pos h2] at h
            obtain ⟨hc1, hc2⟩ := h2
            subst hc1; subst hc2
            by_cases hd1 : d = 1
            · rw [if_pos hd1] at h; simp at h
            · rw [if_neg hd1] at h
              cases hfc : findClose rest (d - 1) with
              | none =>
                rw [tokens_cl, minDepthPos_cl]
                have hrec := ih rest (d - 1) hrest (by omega) hfc
                simp only [hrec, Bool.and_true, decide_eq_true_eq]
                omega
              | some pr => rw [hfc] at h; obtain ⟨i2, a2⟩ := pr; simp at h
          · rw [if_neg h2] at h
            cases hfc : findClose (c2 :: rest) d with
            | none =>
              rw [tokens_ch rest h1 h2, minDepthPos_ch]
              exact ih (c2 :: rest) d hrest2 hd hfc
            | some pr => rw [hfc] at h; obtain ⟨i2, a2⟩ := pr; simp at h

/-- When the inner scanning loop succeeds, the depth counter starting at `d`
does return to zero over the buffer. -/
theorem findClose_some_minDepth (fuel : Nat) :
    ∀ l d i a, l.length ≤ fuel → 1 ≤ d → findClose l d = some (i, a) →
      minDepthPos (tokens l) d = false := by
  induction fuel with
  | zero =>
    intro l d i a hl _ h
    have hnil : l = [] := List.eq_nil_of_length_eq_zero (Nat.le_zero.mp hl)
    subst hnil
    simp [findClose] at h
  | succ n ih =>
    intro l d i a hl hd h
    cases l with
    | nil => simp [findClose] at h
    | cons c1 l2 =>
      cases l2 with
      | nil => simp [findClose] at h
      | cons c2 rest =>
        have hrest : rest.length ≤ n := by
          simp only [List.length_cons] at hl; omega
        have hrest2 : (c2 :: rest).length ≤ n := by
          simp only [List.length_cons] at hl ⊢; omega
        rw [findClose] at h
        by_cases h1 : c1 = '/' ∧ c2 = '*'
        · rw [if_pos h1] at h
          obtain ⟨hc1, hc2⟩ := h1
          subst hc1; subst hc2
          cases hfc : findClose rest (d + 1) with
          | none => rw [hfc] at h; simp at h
          | some pr =>
            obtain ⟨i2, a2⟩ := pr
            rw [tokens_op, minDepthPos_op]
            exact ih rest (d + 1) i2 a2 hrest (by omega) hfc
        · rw [if_neg h1] at h
          by_cases h2 : c1 = '*' ∧ c2 = '/'
          · rw [if_pos h2] at h
            obtain ⟨hc1, hc2⟩ := h2
            subst hc1; subst hc2
            by_cases hd1 : d = 1
            · subst hd1
              rw [tokens_cl, minDepthPos_cl]
              simp
            · rw [if_neg hd1] at h
              cases hfc : findClose rest (d - 1) with
              | none => rw [hfc] at h; simp at h
              | some pr =>
                obtain ⟨i2, a2⟩ := pr
                rw [tokens_cl, minDepthPos_cl]
                have hrec := ih rest (d - 1) i2 a2 hrest (by omega) hfc
                simp [hrec]
          · rw [if_neg h2] at h
            cases hfc : findClose (c2 :: rest) d with
            | none => rw [hfc] at h; simp at h
            | some pr =>
              obtain ⟨i2, a2⟩ := pr
              rw [tokens_ch rest h1 h2, minDepthPos_ch]
              exact ih (c2 :: rest) d i2 a2 hrest2 hd hfc

/-- The result of the outer loop does not depend on the fuel, as long as the
fuel is at least the length of the remaining buffer. -/
theorem fixMLAux_congr (f1 : Nat) :
    ∀ l f2, l.length ≤ f1 → l.length ≤ f2 → fixMLAux f1 l = fixMLAux f2 l := by
  induction f1 with
  | zero =>
    intro l f2 hl _
    have hnil : l = [] := List.eq_nil_of_length_eq_zero (Nat.le_zero.mp hl)
    subst hnil
    cases f2 <;> rfl
  | succ n ih =>
    intro l f2 hl hl2
    cases l with
    | nil => cases f2 <;> rfl
    | cons c1 l2 =>
      cases f2 with
      | zero => simp at hl2
      | succ m =>
        cases l2 with
        | nil => rfl
        | cons c2 rest =>
          have hrest : (c2 :: rest).length ≤ n := by
            simp only [List.length_cons] at hl ⊢; omega
          have hrest2 : (c2 :: rest).length ≤ m := by
            simp only [List.length_cons] at hl2 ⊢; omega
          rw [fixMLAux, fixMLAux]
          by_cases h1 : c1 = '/' ∧ c2 = '*'
          · rw [if_pos h1, if_pos h1]
            cases hfc : findClose rest 1 with
            | none =>
              dsimp only
              rw [ih (c2 :: rest) m hrest hrest2]
            | some pr =>
              obtain ⟨i, a⟩ := pr
              have hA := (findClose_spec rest.length rest 1 i a le_rfl le_rfl hfc).1
              have hlen : a.length ≤ rest.length := by
                rw [hA]; simp only [List.length_append, List.length_cons]; omega
              dsimp only
              rw [ih a m (by simp only [List.length_cons] at hl; omega)
                (by simp only [List.length_cons] at hl2; omega)]
          · rw [if_neg h1, if_neg h1, ih (c2 :: rest) m hrest hrest2]

theorem fixMLAux_eq (fuel : Nat) (l : List Char) (h : l.length ≤ fuel) :
    fixMLAux fuel l = fixMultilineComments l :=
  fixMLAux_congr fuel l l.length h le_rfl

@[simp] theorem fixML_nil : fixMultilineComments [] = [] := rfl

@[simp] theorem fixML_single (c : Char) : fixMultilineComments [c] = [c] := rfl

/-- Unfolding equation: at an open marker with a complete region, the region
is replaced and scanning resumes after the close marker. -/
theorem fixML_open_some {rest i a : List Char} (h : findClose rest 1 = some (i, a)) :
    fixMultilineComments ('/' :: '*' :: rest) = replaceBlock i ++ fixMultilineComments a := by
  have hA := (findClose_spec rest.length rest 1 i a le_rfl le_rfl h).1
  have hlen : a.length ≤ rest.length + 1 := by
    rw [hA]; simp only [List.length_append, List.length_cons]; omega
  rw [fixMultilineComments]
  simp only [List.length_cons]
  rw [fixMLAux, if_pos ⟨rfl, rfl⟩, h]
  dsimp only
  rw [fixMLAux_eq (rest.length + 1) a hlen]

/-- Unfolding equation: at an open marker with no matching close, only the
open slash is emitted and scanning resumes one position later. -/
theorem fixML_open_none {rest : List Char} (h : findClose rest 1 = none) :
    fixMultilineComments ('/' :: '*' :: rest) = '/' :: fixMultilineComments ('*' :: rest) := by
  rw [fixMultilineComments]
  simp only [List.length_cons]
  rw [fixMLAux, if_pos ⟨rfl, rfl⟩, h]
  dsimp only
  rw [fixMLAux_eq (rest.length + 1) ('*' :: rest) (by simp)]

/-- Unfolding equation: outside any marker, one character is copied. -/
theorem fixML_copy {c1 c2 : Char} (rest : List Char) (h : ¬(c1 = '/' ∧ c2 = '*')) :
    fixMultilineComments (c1 :: c2 :: rest) = c1 :: fixMultilineComments (c2 :: rest) := by
  rw [fixMultilineComments]
  simp only [List.length_cons]
  rw [fixMLAux, if_neg h]
  rw [fixMLAux_eq (rest.length + 1) (c2 :: rest) (by simp)]

end FixSyntax

namespace FixSyntax

/-- The decomposition reconstructs the original buffer exactly. -/
theorem flattenOrig_segmentsAux (fuel : Nat) :
    ∀ l, l.length ≤ fuel → flattenOrig (segmentsAux fuel l) = l := by
  induction fuel with
  | zero =>
    intro l hl
    have hnil : l = [] := List.eq_nil_of_length_eq_zero (Nat.le_zero.mp hl)
    subst hnil
    rfl
  | succ n ih =>
    intro l hl
    cases l with
    | nil => rfl
    | cons c1 l2 =>
      cases l2 with
      | nil => rfl
      | cons c2 rest =>
        rw [segmentsAux]
        by_cases h1 : c1 = '/' ∧ c2 = '*'
        · rw [if_pos h1]
          cases hfc : findClose rest 1 with
          | none =>
            dsimp only
            rw [flattenOrig, ih (c2 :: rest)
              (by simp only [List.length_cons] at hl ⊢; omega)]
            rfl
          | some pr =>
            obtain ⟨i, a⟩ := pr
            have hA := (findClose_spec rest.length rest 1 i a le_rfl le_rfl hfc).1
            obtain ⟨hc1, hc2⟩ := h1
            subst hc1; subst hc2
            dsimp only
            rw [flattenOrig, ih a (by
              rw [hA] at hl
              simp only [List.length_cons, List.length_append] at hl ⊢
              omega)]
            rw [segOrig, hA]
            simp
        · rw [if_neg h1]
          rw [flattenOrig, ih (c2 :: rest)
            (by simp only [List.length_cons] at hl ⊢; omega)]
          rfl

/-- The rewritten text of the decomposition is exactly the output of the
outer loop. -/
theorem flattenOut_segmentsAux (fuel : Nat) :
    ∀ l, l.length ≤ fuel → flattenOut (segmentsAux fuel l) = fixMLAux fuel l := by
  induction fuel with
  | zero =>
    intro l hl
    have hnil : l = [] := List.eq_nil_of_length_eq_zero (Nat.le_zero.mp hl)
    subst hnil
    rfl
  | succ n ih =>
    intro l hl
    cases l with
    | nil => rfl
    | cons c1 l2 =>
      cases l2 with
      | nil => rfl
      | cons c2 rest =>
        rw [segmentsAux, fixMLAux]
        by_cases h1 : c1 = '/' ∧ c2 = '*'
        · rw [if_pos h1, if_pos h1]
          cases hfc : findClose rest 1 with
          | none =>
            dsimp only
            rw [flattenOut, ih (c2 :: rest)
              (by simp only [List.length_cons] at hl ⊢; omega)]
            rfl
          | some pr =>
            obtain ⟨i, a⟩ := pr
            have hA := (findClose_spec rest.length rest 1 i a le_rfl le_rfl hfc).1
            dsimp only
            rw [flattenOut, ih a (by
              rw [hA] at hl
              simp only [List.length_cons, List.length_append] at hl ⊢
              omega)]
            rfl
        · rw [if_neg h1, if_neg h1]
          rw [flattenOut, ih (c2 :: rest)
            (by simp only [List.length_cons] at hl ⊢; omega)]
          rfl

/-- The decomposition is valid: region interiors are well-formed and
literal open markers start unterminated regions. -/
theorem segsOk_segmentsAux (fuel : Nat) :
    ∀ l, l.length ≤ fuel → SegsOk (segmentsAux fuel l) := by
  induction fuel with
  | zero =>
    intro l hl
    have hnil : l = [] := List.eq_nil_of_length_eq_zero (Nat.le_zero.mp hl)
    subst hnil
    trivial
  | succ n ih =>
    intro l hl
    cases l with
    | nil => trivial
    | cons c1 l2 =>
      cases l2 with
      | nil =>
        refine ⟨?_, trivial⟩
        intro c2 t hft _ _
        simp [flattenOrig] at hft
      | cons c2 rest =>
        have hlen2 : (c2 :: rest).length ≤ n := by
          simp only [List.length_cons] at hl ⊢; omega
        rw [segmentsAux]
        by_cases h1 : c1 = '/' ∧ c2 = '*'
        · rw [if_pos h1]
          cases hfc : findClose rest 1 with
          | none =>
            dsimp only
            refine ⟨?_, ih (c2 :: rest) hlen2⟩
            intro c2x t hft _ _
            rw [flattenOrig_segmentsAux n (c2 :: rest) hlen2] at hft
            obtain ⟨hx, ht⟩ := List.cons.inj hft
            subst ht
            exact findClose_none_minDepth rest.length rest 1 le_rfl le_rfl hfc
          | some pr =>
            obtain ⟨i, a⟩ := pr
            obtain ⟨hA, _, hC, hD⟩ :=
              findClose_spec rest.length rest 1 i a le_rfl le_rfl hfc
            have halen : a.length ≤ n := by
              rw [hA] at hl
              simp only [List.length_cons, List.length_append] at hl
              omega
            dsimp only
            refine ⟨⟨by omega, ?_⟩, ih a halen⟩
            intro p q hpq
            have := hC p q hpq
            omega
        · rw [if_neg h1]
          refine ⟨?_, ih (c2 :: rest) hlen2⟩
          intro c2x t hft hc1 hc2x
          rw [flattenOrig_segmentsAux n (c2 :: rest) hlen2] at hft
          obtain ⟨hx, ht⟩ := List.cons.inj hft
          exact absurd ⟨hc1, hx ▸ hc2x⟩ h1

/-- When the first-close search succeeds, the buffer splits at the first
occurrence of the close marker: the prefix before the returned split point
contains no earlier occurrence. -/
theorem safc_some : ∀ l b a, splitAtFirstClose l = some (b, a) →
    l = b ++ '*' :: '/' :: a ∧
      ∀ x y, l = x ++ '*' :: '/' :: y → b.length ≤ x.length := by
  intro l
  induction l with
  | nil => intro b a h; simp [splitAtFirstClose] at h
  | cons c1 l2 ih =>
    intro b a h
    cases l2 with
    | nil => simp [splitAtFirstClose] at h
    | cons c2 rest =>
      rw [splitAtFirstClose] at h
      by_cases h1 : c1 = '*' ∧ c2 = '/'
      · rw [if_pos h1] at h
        simp only [Option.some.injEq, Prod.mk.injEq] at h
        obtain ⟨hb, ha⟩ := h
        subst hb; subst ha
        obtain ⟨hc1, hc2⟩ := h1
        subst hc1; subst hc2
        exact ⟨rfl, fun x y _ => by simp⟩
      · rw [if_neg h1] at h
        cases hfc : splitAtFirstClose (c2 :: rest) with
        | none => rw [hfc] at h; simp at h
        | some pr =>
          obtain ⟨b2, a2⟩ := pr
          rw [hfc] at h
          simp only [Option.some.injEq, Prod.mk.injEq] at h
          obtain ⟨hb, ha⟩ := h
          subst hb; subst ha
          obtain ⟨hA, hMin⟩ := ih b2 a2 hfc
          constructor
          · simp only [List.cons_append]
            exact congrArg (List.cons c1) hA
          · intro x y hxy
            cases x with
            | nil =>
              exfalso
              simp only [List.nil_append, List.cons.injEq] at hxy
              exact h1 ⟨hxy.1, hxy.2.1⟩
            | cons cx x2 =>
              simp only [List.cons_append, List.cons.injEq] at hxy
              have := hMin x2 y hxy.2
              simp only [List.length_cons]
              omega

/-- When the buffer contains an occurrence of the close marker, the
first-close search succeeds. -/
theorem safc_complete : ∀ x l y, l = x ++ '*' :: '/' :: y →
    ∃ b a, splitAtFirstClose l = some (b, a) := by
  intro x
  induction x with
  | nil =>
    intro l y h
    subst h
    exact ⟨[], y, rfl⟩
  | cons c x2 ih =>
    intro l y h
    subst h
    cases hx : x2 ++ '*' :: '/' :: y with
    | nil => exact absurd hx (by simp)
    | cons c2 rest =>
      obtain ⟨b2, a2, hb2⟩ := ih (x2 ++ '*' :: '/' :: y) y rfl
      rw [hx] at hb2
      by_cases h1 : c = '*' ∧ c2 = '/'
      · refine ⟨[], rest, ?_⟩
        obtain ⟨hc, hc2⟩ := h1
        subst hc; subst hc2
        rw [List.cons_append, hx]
        rfl
      · refine ⟨c :: b2, a2, ?_⟩
        rw [List.cons_append, hx, splitAtFirstClose.eq_def]
        dsimp only
        rw [if_neg h1, hb2]

/-- When the header regex matches, the buffer is the header followed by the
rest. -/
theorem headerSplit_some :
    ∀ content hdr r, headerSplit content = some (hdr, r) → content = hdr ++ r := by
  intro content hdr r hh
  cases content with
  | nil => simp [headerSplit] at hh
  | cons c1 l2 =>
    cases l2 with
    | nil => simp [headerSplit] at hh
    | cons c2 l3 =>
      cases l3 with
      | nil => simp [headerSplit] at hh
      | cons c3 rest =>
        rw [headerSplit] at hh
        by_cases h1 : c1 = '/' ∧ c2 = '*' ∧ c3 = '*'
        · rw [if_pos h1] at hh
          cases hfc : splitAtFirstClose rest with
          | none => rw [hfc] at hh; simp at hh
          | some pr =>
            obtain ⟨b, a⟩ := pr
            rw [hfc] at hh
            simp only [Option.some.injEq, Prod.mk.injEq] at hh
            obtain ⟨hhdr, hr⟩ := hh
            subst hhdr; subst hr
            have hA := (safc_some rest b a hfc).1
            rw [hA]
            simp
        · rw [if_neg h1] at hh
          simp at hh

end FixSyntax

namespace FixSyntax

theorem flattenOrig_segments (l : List Char) : flattenOrig (segments l) = l :=
  flattenOrig_segmentsAux l.length l le_rfl

theorem flattenOut_segments (l : List Char) :
    flattenOut (segments l) = fixMultilineComments l :=
  flattenOut_segmentsAux l.length l le_rfl

theorem segsOk_segments (l : List Char) : SegsOk (segments l) :=
  segsOk_segmentsAux l.length l le_rfl

/-- C1: for every input buffer, the rewrite operation (the header skip of
`fix_file` followed by `fix_multiline_comments`) returns the buffer with
every well-formed block-comment region replaced by its line-comment
rewriting and everything else copied verbatim and in order: the buffer
splits into the protected header (when the header pattern matches) and a
body, the body decomposes into segments whose concatenated original text is
exactly the body, every region segment has a well-formed interior (nesting
depth returns to zero at its matching close marker), every literal segment
— including the open marker of an unterminated region, which falls back to
a literal copy with scanning resuming one position later — is copied
verbatim (no literal open marker has a matching close, so every well-formed
region is replaced), and the output is the header copied verbatim followed
by the rendering of the segments in order. -/
theorem c1_rewrite_decomposition (content : List Char) :
    ∃ hdr body segs,
      content = hdr ++ body ∧
      (headerSplit content = some (hdr, body) ∨
        (headerSplit content = none ∧ hdr = [] ∧ body = content)) ∧
      flattenOrig segs = body ∧
      SegsOk segs ∧
      fixFileContent content = hdr ++ flattenOut segs := by
  cases hh : headerSplit content with
  | none =>
    refine ⟨[], content, segments content, rfl, Or.inr ⟨rfl, rfl, rfl⟩,
      flattenOrig_segments content, segsOk_segments content, ?_⟩
    rw [fixFileContent.eq_def, hh]
    dsimp only
    rw [List.nil_append, flattenOut_segments content]
  | some pr =>
    obtain ⟨hdr, body⟩ := pr
    have hh2 : headerSplit content = some (hdr, body) := hh
    refine ⟨hdr, body, segments body, headerSplit_some content hdr body hh2,
      Or.inl rfl, flattenOrig_segments body, segsOk_segments body, ?_⟩
    rw [fixFileContent.eq_def, hh]
    dsimp only
    rw [flattenOut_segments body]

/-- C2: for every buffer starting with the header opener `/**` and
containing a close marker `*/` after those three characters, the output of
the rewrite operation is the prefix ending at the first such close marker,
copied verbatim, followed by the rewriting of the text after it — so
comment scanning is performed only on the text after that prefix, even if
the prefix contains further `/*` pairs. -/
theorem c2_header_preserved (rest3 : List Char)
    (h : ∃ x y, rest3 = x ++ '*' :: '/' :: y) :
    ∃ b a, rest3 = b ++ '*' :: '/' :: a ∧
      (∀ x y, rest3 = x ++ '*' :: '/' :: y → b.length ≤ x.length) ∧
      fixFileContent ('/' :: '*' :: '*' :: rest3) =
        '/' :: '*' :: '*' :: b ++ '*' :: '/' :: fixMultilineComments a := by
  obtain ⟨x, y, hxy⟩ := h
  obtain ⟨b, a, hb⟩ := safc_complete x rest3 y hxy
  obtain ⟨hA, hMin⟩ := safc_some rest3 b a hb
  refine ⟨b, a, hA, hMin, ?_⟩
  have hhs : headerSplit ('/' :: '*' :: '*' :: rest3) =
      some ('/' :: '*' :: '*' :: b ++ ['*', '/'], a) := by
    rw [headerSplit.eq_def]
    dsimp only
    rw [if_pos ⟨rfl, rfl, rfl⟩, hb]
  rw [fixFileContent.eq_def, hhs]
  dsimp only
  simp

theorem c2_header_preserved_witness :
    ∃ b a, ("a*/b").data = b ++ '*' :: '/' :: a ∧
      (∀ x y, ("a*/b").data = x ++ '*' :: '/' :: y → b.length ≤ x.length) ∧
      fixFileContent ('/' :: '*' :: '*' :: ("a*/b").data) =
        '/' :: '*' :: '*' :: b ++ '*' :: '/' :: fixMultilineComments a :=
  c2_header_preserved (("a*/b").data) ⟨("a").data, ("b").data, by decide⟩

/-- C3: nested regions are treated as one region: whenever the scan finds a
complete region, the buffer after the open marker splits into the interior,
the matching close marker, and the rest; the interior is well-formed per
the depth-counting specification (the depth, incremented at each open
marker and decremented at each close marker, returns to zero only at the
final matching close marker); and the entire interior, inner markers
included, is converted to line comments as one unit.  In particular the
nested input is rewritten as a single region. -/
theorem c3_nested_single_region :
    (∀ rest i a, findClose rest 1 = some (i, a) →
      rest = i ++ '*' :: '/' :: a ∧ WellFormedInterior i ∧
      fixMultilineComments ('/' :: '*' :: rest) =
        replaceBlock i ++ fixMultilineComments a) ∧
    fixMultilineComments (("/* a /* b */ c */").data) =
      (" // DISABLED: Implementation pending\n // a /* b */ c ").data := by
  constructor
  · intro rest i a hfc
    obtain ⟨hA, _, hC, hD⟩ := findClose_spec rest.length rest 1 i a le_rfl le_rfl hfc
    refine ⟨hA, ⟨by omega, fun p q hpq => ?_⟩, fixML_open_some hfc⟩
    have := hC p q hpq
    omega
  · decide

theorem c3_nested_single_region_witness :
    (" a /* b */ c */").data = (" a /* b */ c ").data ++ '*' :: '/' :: ([] : List Char) ∧
    WellFormedInterior ((" a /* b */ c ").data) ∧
    fixMultilineComments ('/' :: '*' :: (" a /* b */ c */").data) =
      replaceBlock ((" a /* b */ c ").data) ++ fixMultilineComments ([] : List Char) :=
  c3_nested_single_region.1 ((" a /* b */ c */").data) ((" a /* b */ c ").data) []
    (by decide)

/-- C4: at an open marker whose depth counter never returns to zero before
the end of the buffer, the rewriter emits only the single character at the
open marker position and resumes normal scanning one position after it; in
particular the input with no closing marker anywhere is returned
byte-for-byte unchanged by both the scanner and the whole rewrite
operation (which is a total function, so no error is raised). -/
theorem c4_unterminated_passthrough :
    (∀ rest, neverClosesB rest = true →
      fixMultilineComments ('/' :: '*' :: rest) =
        '/' :: fixMultilineComments ('*' :: rest)) ∧
    fixMultilineComments (("/* never closes").data) = ("/* never closes").data ∧
    fixFileContent (("/* never closes").data) = ("/* never closes").data := by
  refine ⟨?_, by decide, by decide⟩
  intro rest hnc
  cases hfc : findClose rest 1 with
  | none => exact fixML_open_none hfc
  | some pr =>
    obtain ⟨i, a⟩ := pr
    have hmd := findClose_some_minDepth rest.length rest 1 i a le_rfl le_rfl hfc
    rw [neverClosesB, hmd] at hnc
    exact absurd hnc (by simp)

theorem c4_unterminated_passthrough_witness :
    neverClosesB ((" x /* y").data) = true ∧
    fixMultilineComments ('/' :: '*' :: (" x /* y").data) =
      '/' :: fixMultilineComments ('*' :: (" x /* y").data) :=
  ⟨by decide, c4_unterminated_passthrough.1 ((" x /* y").data) (by decide)⟩

/-- C6 counterexample: for the region with empty interior in `"/**/x"`, the
replacement is not the banner line alone placed directly against the
following text — the code emits a newline between the banner and the text
following the close marker (the empty interior line survives the join). -/
theorem c6_empty_region_counterexample :
    fixMultilineComments (("/**/x").data) ≠
      ("// DISABLED: Implementation pendingx").data ∧
    fixMultilineComments (("/**/x").data) =
      ("// DISABLED: Implementation pending\nx").data := by
  exact ⟨by decide, by decide⟩

/-- C6 amended: for every region whose open marker is immediately followed
by its close marker (empty interior), the replacement text is the banner
line followed by one newline character (the preserved empty interior line)
before the text following the close marker. -/
theorem c6_empty_region_amended (rest : List Char) :
    fixMultilineComments ('/' :: '*' :: '*' :: '/' :: rest) =
      bannerChars ++ '\n' :: fixMultilineComments rest := by
  have hfc : findClose ('*' :: '/' :: rest) 1 = some ([], rest) := rfl
  rw [fixML_open_some hfc]
  have hrb : replaceBlock [] = bannerChars ++ ['\n'] := by decide
  rw [hrb]
  simp

/-- C7: a buffer with no occurrence of the two-character open marker is
returned unchanged, byte-for-byte, by the rewrite operation (and by the
scanner alone). -/
theorem c7_no_marker_identity (l : List Char) (h : hasOpenMarker l = false) :
    fixFileContent l = l ∧ fixMultilineComments l = l := by
  have hml : ∀ l2, hasOpenMarker l2 = false → fixMultilineComments l2 = l2 := by
    intro l2
    induction l2 with
    | nil => intro _; rfl
    | cons c1 t ih =>
      intro h2
      cases t with
      | nil => rfl
      | cons c2 rest =>
        rw [hasOpenMarker] at h2
        simp only [Bool.or_eq_false_iff] at h2
        obtain ⟨hm, hrest⟩ := h2
        have hneg : ¬(c1 = '/' ∧ c2 = '*') := by
          intro he
          obtain ⟨e1, e2⟩ := he
          subst e1; subst e2
          simp at hm
        rw [fixML_copy rest hneg, ih hrest]
  refine ⟨?_, hml l h⟩
  cases hh : headerSplit l with
  | none =>
    rw [fixFileContent.eq_def, hh]
    dsimp only
    exact hml l h
  | some pr =>
    obtain ⟨hdr, r⟩ := pr
    exfalso
    cases l with
    | nil => simp [headerSplit.eq_def] at hh
    | cons c1 t1 =>
      cases t1 with
      | nil => simp [headerSplit.eq_def] at hh
      | cons c2 t2 =>
        cases t2 with
        | nil => simp [headerSplit.eq_def] at hh
        | cons c3 rest =>
          by_cases hc : c1 = '/' ∧ c2 = '*' ∧ c3 = '*'
          · obtain ⟨e1, e2, _⟩ := hc
            subst e1; subst e2
            rw [hasOpenMarker] at h
            simp at h
          · rw [headerSplit.eq_def] at hh
            dsimp only at hh
            rw [if_neg hc] at hh
            exact Option.noConfusion hh

theorem c7_no_marker_identity_witness :
    hasOpenMarker (("const x = 1; // done").data) = false ∧
    fixFileContent (("const x = 1; // done").data) = ("const x = 1; // done").data :=
  ⟨by decide, (c7_no_marker_identity (("const x = 1; // done").data) (by decide)).1⟩

end FixSyntax

namespace FixSyntax

@[simp] theorem splitNL_nil : splitNL [] = [[]] := rfl

theorem splitNL_newline (rest : List Char) :
    splitNL ('\n' :: rest) = [] :: splitNL rest := by
  rw [splitNL.eq_def]
  dsimp only
  rw [if_pos rfl]

theorem splitNL_cons {c : Char} {rest : List Char} {h : List Char}
    {t : List (List Char)} (hc : ¬c = '\n') (hsp : splitNL rest = h :: t) :
    splitNL (c :: rest) = (c :: h) :: t := by
  rw [splitNL.eq_def]
  dsimp only
  rw [if_neg hc, hsp]

theorem splitNL_ne_nil : ∀ l, splitNL l ≠ [] := by
  intro l
  cases l with
  | nil => simp
  | cons c rest =>
    by_cases hc : c = '\n'
    · subst hc
      rw [splitNL_newline]
      simp
    · cases hsp : splitNL rest with
      | nil => exact absurd hsp (splitNL_ne_nil rest)
      | cons h t =>
        rw [splitNL_cons hc hsp]
        simp

/-- Lines produced by the newline split contain no newline character. -/
theorem noNL_splitNL : ∀ l x, x ∈ splitNL l → '\n' ∉ x := by
  intro l
  induction l with
  | nil =>
    intro x hx
    simp at hx
    subst hx
    simp
  | cons c rest ih =>
    intro x hx
    by_cases hc : c = '\n'
    · subst hc
      rw [splitNL_newline] at hx
      rcases List.mem_cons.mp hx with he | hm
      · subst he; simp
      · exact ih x hm
    · cases hsp : splitNL rest with
      | nil => exact absurd hsp (splitNL_ne_nil rest)
      | cons h t =>
        rw [splitNL_cons hc hsp] at hx
        rcases List.mem_cons.mp hx with he | hm
        · subst he
          intro hmem
          rcases List.mem_cons.mp hmem with he2 | hm2
          · exact hc he2.symm
          · exact ih h (by rw [hsp]; exact List.mem_cons_self h t) hm2
        · exact ih x (by rw [hsp]; exact List.mem_cons.mpr (Or.inr hm))

@[simp] theorem joinNL_nil : joinNL [] = [] := rfl

@[simp] theorem joinNL_single (l : List Char) : joinNL [l] = l := rfl

theorem joinNL_cons₂ (l y : List Char) (ls : List (List Char)) :
    joinNL (l :: y :: ls) = l ++ '\n' :: joinNL (y :: ls) := rfl

/-- Splitting after appending a newline-free line and a newline recovers
the line. -/
theorem splitNL_append_nl : ∀ x r, '\n' ∉ x →
    splitNL (x ++ '\n' :: r) = x :: splitNL r := by
  intro x
  induction x with
  | nil =>
    intro r _
    rw [List.nil_append, splitNL_newline]
  | cons c x2 ih =>
    intro r hnx
    have hc : ¬c = '\n' := by
      intro he
      exact hnx (by rw [he]; exact List.mem_cons_self _ _)
    have hx2 : '\n' ∉ x2 := fun hm => hnx (List.mem_cons.mpr (Or.inr hm))
    rw [List.cons_append, splitNL_cons hc (ih r hx2)]

/-- Splitting a newline-free line yields that single line. -/
theorem splitNL_no_nl : ∀ x, '\n' ∉ x → splitNL x = [x] := by
  intro x
  induction x with
  | nil => intro _; rfl
  | cons c x2 ih =>
    intro hnx
    have hc : ¬c = '\n' := by
      intro he
      exact hnx (by rw [he]; exact List.mem_cons_self _ _)
    have hx2 : '\n' ∉ x2 := fun hm => hnx (List.mem_cons.mpr (Or.inr hm))
    rw [splitNL_cons hc (ih hx2)]

/-- Splitting inverts joining for nonempty lists of newline-free lines. -/
theorem splitNL_joinNL : ∀ ls, ls ≠ [] → (∀ x ∈ ls, '\n' ∉ x) →
    splitNL (joinNL ls) = ls := by
  intro ls
  induction ls with
  | nil => intro h _; exact absurd rfl h
  | cons x ls2 ih =>
    intro _ hall
    cases ls2 with
    | nil =>
      rw [joinNL_single]
      exact splitNL_no_nl x (hall x (List.mem_cons_self _ _))
    | cons y ls3 =>
      rw [joinNL_cons₂, splitNL_append_nl x _ (hall x (List.mem_cons_self _ _)),
        ih (by simp) (fun z hz => hall z (List.mem_cons.mpr (Or.inr hz)))]

theorem takeWhile_append_stop {p : Char → Bool} :
    ∀ pre c suf, (∀ x ∈ pre, p x = true) → p c = false →
      List.takeWhile p (pre ++ c :: suf) = pre := by
  intro pre
  induction pre with
  | nil =>
    intro c suf _ hc
    rw [List.nil_append, List.takeWhile_cons, if_neg (by simp [hc])]
  | cons a pre2 ih =>
    intro c suf hall hc
    have ha : p a = true := hall a (List.mem_cons_self _ _)
    rw [List.cons_append, List.takeWhile_cons, if_pos (by simp [ha]),
      ih c suf (fun x hx => hall x (List.mem_cons.mpr (Or.inr hx))) hc]

/-- The head of the leftover of a left strip is not whitespace. -/
theorem lstrip_head_not_space : ∀ l c t, lstrip l = c :: t → isPySpace c = false := by
  intro l
  induction l with
  | nil => intro c t h; simp [lstrip] at h
  | cons a l2 ih =>
    intro c t h
    rw [lstrip, List.dropWhile_cons] at h
    by_cases hp : isPySpace a
    · rw [if_pos hp] at h
      exact ih c t h
    · rw [if_neg hp] at h
      obtain ⟨hc, _⟩ := List.cons.inj h
      subst hc
      simpa using hp

/-- A line with non-whitespace content also has nonempty two-sided strip. -/
theorem pyStrip_not_empty {l : List Char} (h : (lstrip l).isEmpty = false) :
    ¬(pyStrip l).isEmpty = true := by
  cases hs : lstrip l with
  | nil => rw [hs] at h; simp at h
  | cons c t =>
    have hc := lstrip_head_not_space l c t hs
    intro hemp
    rw [pyStrip, List.isEmpty_iff, List.reverse_eq_nil_iff,
      List.dropWhile_eq_nil_iff] at hemp
    have hcmem : c ∈ (l.dropWhile isPySpace).reverse := by
      rw [List.mem_reverse]
      rw [lstrip] at hs
      rw [hs]
      exact List.mem_cons_self _ _
    have := hemp c hcmem
    rw [hc] at this
    exact Bool.noConfusion this

/-- A line with non-whitespace content is rewritten as its indent, the line
comment marker, a space, and the stripped content. -/
theorem fixLine_content {l : List Char} (h : (lstrip l).isEmpty = false) :
    fixLine l = indentOf l ++ '/' :: '/' :: ' ' :: lstrip l := by
  rw [fixLine, if_neg (pyStrip_not_empty h)]
  dsimp only
  rw [if_neg (by rw [h]; exact Bool.noConfusion)]

/-- The indent of a rewritten content line is the indent of the original
line. -/
theorem indentOf_fixLine {l : List Char} (h : (lstrip l).isEmpty = false) :
    indentOf (fixLine l) = indentOf l := by
  rw [fixLine_content h, indentOf,
    takeWhile_append_stop (indentOf l) '/' ('/' :: ' ' :: lstrip l)
      (fun x hx => List.mem_takeWhile_imp hx) rfl]

/-- Rewriting a newline-free line produces a newline-free line. -/
theorem noNL_fixLine {l : List Char} (h : '\n' ∉ l) : '\n' ∉ fixLine l := by
  rw [fixLine]
  by_cases h1 : (pyStrip l).isEmpty
  · rw [if_pos h1]; exact h
  · rw [if_neg h1]
    dsimp only
    by_cases h2 : (lstrip l).isEmpty
    · rw [if_pos h2]; exact h
    · rw [if_neg h2]
      intro hmem
      rcases List.mem_append.mp hmem with hi | hm
      · exact h ((List.takeWhile_sublist isPySpace).subset hi)
      · rcases List.mem_cons.mp hm with he | hm2
        · exact absurd he (by decide)
        · rcases List.mem_cons.mp hm2 with he | hm3
          · exact absurd he (by decide)
          · rcases List.mem_cons.mp hm3 with he | hm4
            · exact absurd he (by decide)
            · exact h ((List.dropWhile_sublist isPySpace).subset hm4)

/-- C5 counterexample: for the interior whose first non-blank line is
"foo" at 2-space indent but whose first line is blank, the first two output
lines of the reformatter are not the 2-space-indented banner followed by
the commented line — the code inserts the unindented banner before the
blank first line instead. -/
theorem c5_banner_counterexample :
    (splitNL (replaceBlock (("\n  foo").data))).take 2 ≠
      [("  // DISABLED: Implementation pending").data, ("  // foo").data] ∧
    replaceBlock (("\n  foo").data) =
      ("// DISABLED: Implementation pending\n\n  // foo").data := by
  exact ⟨by decide, by decide⟩

/-- A line whose left strip is empty reduces the two-sided strip to the
empty list as well. -/
theorem lstrip_nil_pyStrip {l : List Char} (h : lstrip l = []) : pyStrip l = [] := by
  rw [pyStrip]
  rw [lstrip] at h
  rw [h]
  rfl

/-- A blank or whitespace-only line is preserved unchanged by the line
conversion. -/
theorem fixLine_of_blank {l : List Char} (h : (lstrip l).isEmpty = true) :
    fixLine l = l := by
  have h0 : lstrip l = [] := List.isEmpty_iff.mp h
  rw [fixLine, if_pos (by rw [lstrip_nil_pyStrip h0]; rfl)]

/-- The leading-whitespace indent of a whitespace-only line is the whole
line. -/
theorem indentOf_of_blank {l : List Char} (h : (lstrip l).isEmpty = true) :
    indentOf l = l := by
  have h0 : lstrip l = [] := List.isEmpty_iff.mp h
  rw [lstrip] at h0
  rw [indentOf]
  exact List.takeWhile_eq_self_iff.mpr (List.dropWhile_eq_nil_iff.mp h0)

/-- The indent of any rewritten line equals the indent of the original
line (for a whitespace-only line both are the whole line). -/
theorem indentOf_fixLine_eq (l : List Char) : indentOf (fixLine l) = indentOf l := by
  by_cases hb : (lstrip l).isEmpty
  · rw [fixLine_of_blank hb]
  · have hb2 : (lstrip l).isEmpty = false := by simpa using hb
    exact indentOf_fixLine hb2

/-- C5 amended: for every region interior, the reformatter splits the
interior into lines, converts each line (a blank or whitespace-only line is
preserved unchanged; every other line becomes its indent, the line comment
marker, a space and the stripped content), and inserts the banner line at
the front of the whole line list — before any leading blank lines, not
immediately before the first transformed content line — indented with the
leading whitespace of the first rewritten line, which for a whitespace-only
first line is that entire line; in particular, when the first line of the
interior itself is the content line, the first two output lines are the
banner at that line's indent and that line's rewriting. -/
theorem c5_banner_amended (interior l : List Char) (ls : List (List Char))
    (hsp : splitNL interior = l :: ls) :
    splitNL (replaceBlock interior) =
      (indentOf l ++ bannerChars) :: fixLine l :: ls.map fixLine ∧
    fixLine l = (if (lstrip l).isEmpty then l
      else indentOf l ++ '/' :: '/' :: ' ' :: lstrip l) ∧
    ((lstrip l).isEmpty = true → indentOf l = l) := by
  have hnl : ∀ x ∈ splitNL interior, '\n' ∉ x := noNL_splitNL interior
  have hln : '\n' ∉ l := hnl l (by rw [hsp]; exact List.mem_cons_self _ _)
  have hrb : replaceBlock interior =
      joinNL ((indentOf (fixLine l) ++ bannerChars) :: fixLine l :: ls.map fixLine) := by
    rw [replaceBlock, hsp]
    rfl
  refine ⟨?_, ?_, fun hb => indentOf_of_blank hb⟩
  · rw [hrb, indentOf_fixLine_eq l]
    rw [splitNL_joinNL _ (by simp) ?_]
    intro x hx
    rcases List.mem_cons.mp hx with he | hm
    · subst he
      intro hmem
      rcases List.mem_append.mp hmem with hi | hb
      · exact hln ((List.takeWhile_sublist isPySpace).subset hi)
      · exact absurd hb (by decide)
    · rcases List.mem_cons.mp hm with he | hm2
      · subst he
        exact noNL_fixLine hln
      · obtain ⟨y, hy, he⟩ := List.mem_map.mp hm2
        subst he
        exact noNL_fixLine (hnl y (by rw [hsp]; exact List.mem_cons.mpr (Or.inr hy)))
  · by_cases hb : (lstrip l).isEmpty
    · rw [if_pos hb]
      exact fixLine_of_blank hb
    · rw [if_neg hb]
      have hb2 : (lstrip l).isEmpty = false := by simpa using hb
      exact fixLine_content hb2

theorem c5_banner_amended_witness :
    splitNL (("  \n    foo").data) = ("  ").data :: [("    foo").data] ∧
    (splitNL (replaceBlock (("  \n    foo").data)) =
      (indentOf (("  ").data) ++ bannerChars) ::
        fixLine (("  ").data) :: ([("    foo").data]).map fixLine ∧
    fixLine (("  ").data) = (if (lstrip (("  ").data)).isEmpty then ("  ").data
      else indentOf (("  ").data) ++ '/' :: '/' :: ' ' :: lstrip (("  ").data)) ∧
    ((lstrip (("  ").data)).isEmpty = true → indentOf (("  ").data) = ("  ").data)) :=
  ⟨by decide,
    c5_banner_amended (("  \n    foo").data) (("  ").data) [("    foo").data] (by decide)⟩

end FixSyntax

namespace CompareReports

/-- C8: `extract_metrics` computes `line_duplication_pct` as
duplicated lines over total lines times 100 and `token_duplication_pct` as
duplicated tokens over total tokens times 100 when the corresponding total
is positive, and yields exactly 0 when the total is 0 (the zero case is
taken by the guard, so no division by zero is evaluated). -/
theorem c8_extract_metrics_pct (r : Report) :
    (extract_metrics r).line_duplication_pct =
      (if 0 < (extract_metrics r).total_lines then
        ((extract_metrics r).duplicated_lines : ℚ) /
          ((extract_metrics r).total_lines : ℚ) * 100
      else 0) ∧
    (extract_metrics r).token_duplication_pct =
      (if 0 < (extract_metrics r).total_tokens then
        ((extract_metrics r).duplicated_tokens : ℚ) /
          ((extract_metrics r).total_tokens : ℚ) * 100
      else 0) ∧
    ((extract_metrics r).total_lines = 0 →
      (extract_metrics r).line_duplication_pct = 0) ∧
    ((extract_metrics r).total_tokens = 0 →
      (extract_metrics r).token_duplication_pct = 0) := by
  have h1 : (extract_metrics r).line_duplication_pct =
      (if 0 < (extract_metrics r).total_lines then
        ((extract_metrics r).duplicated_lines : ℚ) /
          ((extract_metrics r).total_lines : ℚ) * 100
      else 0) := rfl
  have h2 : (extract_metrics r).token_duplication_pct =
      (if 0 < (extract_metrics r).total_tokens then
        ((extract_metrics r).duplicated_tokens : ℚ) /
          ((extract_metrics r).total_tokens : ℚ) * 100
      else 0) := rfl
  refine ⟨h1, h2, ?_, ?_⟩
  · intro h0
    rw [h1, if_neg (by omega)]
  · intro h0
    rw [h2, if_neg (by omega)]

theorem c8_extract_metrics_pct_witness :
    (extract_metrics (Report.mk [none])).total_lines = 0 ∧
    (extract_metrics (Report.mk [none])).line_duplication_pct = 0 ∧
    (extract_metrics (Report.mk [none])).total_tokens = 0 ∧
    (extract_metrics (Report.mk [none])).token_duplication_pct = 0 :=
  ⟨rfl, (c8_extract_metrics_pct (Report.mk [none])).2.2.1 rfl, rfl,
    (c8_extract_metrics_pct (Report.mk [none])).2.2.2 rfl⟩

/-- C9: the Metrics Differ reports PASS for its three checks exactly when
the final `token_duplication_pct` is at most 4.5, the final `total_clones`
is at most 100, and the token reduction percentage — baseline minus final
duplicated tokens, over baseline duplicated tokens, times 100 — is at
least 40; and on the end-to-end example with baseline 1000 duplicated of
10000 total tokens and final 400 of 10000, the baseline percentage is 10,
the final percentage is 4, the token reduction is 60 percent, and the
40-percent-reduction check reports PASS. -/
theorem c9_success_criteria :
    (∀ b f : Metrics,
      ((compare_metrics b f).token_pct_pass = true ↔
        f.token_duplication_pct ≤ (4.5 : ℚ)) ∧
      ((compare_metrics b f).clones_pass = true ↔ f.total_clones ≤ 100) ∧
      ((compare_metrics b f).reduction_pass = true ↔
        (40 : ℚ) ≤ (compare_metrics b f).token_reduction_pct) ∧
      (0 < b.duplicated_tokens →
        (compare_metrics b f).token_reduction_pct =
          ((b.duplicated_tokens : ℚ) - (f.duplicated_tokens : ℚ)) /
            (b.duplicated_tokens : ℚ) * 100)) ∧
    (extract_metrics (Report.mk [some ⟨1000, 10000, 100, 1000, 50⟩])).token_duplication_pct
        = 10 ∧
    (extract_metrics (Report.mk [some ⟨1000, 10000, 40, 400, 20⟩])).token_duplication_pct
        = 4 ∧
    (compare_metrics (extract_metrics (Report.mk [some ⟨1000, 10000, 100, 1000, 50⟩]))
        (extract_metrics (Report.mk [some ⟨1000, 10000, 40, 400, 20⟩]))).token_reduction_pct
        = 60 ∧
    (compare_metrics (extract_metrics (Report.mk [some ⟨1000, 10000, 100, 1000, 50⟩]))
        (extract_metrics (Report.mk [some ⟨1000, 10000, 40, 400, 20⟩]))).reduction_pass
        = true := by
  refine ⟨?_, ?_, ?_, ?_, ?_⟩
  · intro b f
    refine ⟨decide_eq_true_iff, decide_eq_true_iff, decide_eq_true_iff, ?_⟩
    intro hpos
    have h1 : (compare_metrics b f).token_reduction_pct =
        (if 0 < b.duplicated_tokens then
          ((((b.duplicated_tokens : Int) - (f.duplicated_tokens : Int)) : Int) : ℚ) /
            (b.duplicated_tokens : ℚ) * 100
        else 0) := rfl
    rw [h1, if_pos hpos]
    push_cast
    ring
  · norm_num [extract_metrics, addFormat]
  · norm_num [extract_metrics, addFormat]
  · norm_num [compare_metrics, extract_metrics, addFormat]
  · norm_num [compare_metrics, extract_metrics, addFormat]

theorem c9_success_criteria_witness :
    0 < (extract_metrics (Report.mk [some ⟨1000, 10000, 100, 1000, 50⟩])).duplicated_tokens ∧
    (compare_metrics (extract_metrics (Report.mk [some ⟨1000, 10000, 100, 1000, 50⟩]))
        (extract_metrics (Report.mk [some ⟨1000, 10000, 40, 400, 20⟩]))).token_reduction_pct =
      (((extract_metrics (Report.mk [some ⟨1000, 10000, 100, 1000, 50⟩])).duplicated_tokens : ℚ) -
        ((extract_metrics (Report.mk [some ⟨1000, 10000, 40, 400, 20⟩])).duplicated_tokens : ℚ)) /
        ((extract_metrics (Report.mk [some ⟨1000, 10000, 100, 1000, 50⟩])).duplicated_tokens : ℚ) * 100 :=
  ⟨by decide,
    (c9_success_criteria.1 (extract_metrics (Report.mk [some ⟨1000, 10000, 100, 1000, 50⟩]))
      (extract_metrics (Report.mk [some ⟨1000, 10000, 40, 400, 20⟩]))).2.2.2 (by decide)⟩

/-- C10: when the baseline record has zero duplicated tokens, the token
reduction percentage is defined as 0, so the reduction criterion reports
FAIL regardless of the final record — including when the final record also
has zero duplicated tokens — while the other two criteria do not depend on
the baseline record at all. -/
theorem c10_zero_baseline_reduction_fails :
    (∀ b f : Metrics, b.duplicated_tokens = 0 →
      (compare_metrics b f).token_reduction_pct = 0 ∧
      (compare_metrics b f).reduction_pass = false ∧
      ∀ b2 : Metrics,
        (compare_metrics b f).token_pct_pass = (compare_metrics b2 f).token_pct_pass ∧
        (compare_metrics b f).clones_pass = (compare_metrics b2 f).clones_pass) ∧
    (compare_metrics (extract_metrics (Report.mk []))
        (extract_metrics (Report.mk []))).reduction_pass = false := by
  constructor
  · intro b f h0
    have h1 : (compare_metrics b f).token_reduction_pct =
        (if 0 < b.duplicated_tokens then
          ((((b.duplicated_tokens : Int) - (f.duplicated_tokens : Int)) : Int) : ℚ) /
            (b.duplicated_tokens : ℚ) * 100
        else 0) := rfl
    have hz : (compare_metrics b f).token_reduction_pct = 0 := by
      rw [h1, if_neg (by omega)]
    refine ⟨hz, ?_, fun b2 => ⟨rfl, rfl⟩⟩
    have h2 : (compare_metrics b f).reduction_pass =
        decide ((40 : ℚ) ≤ (compare_metrics b f).token_reduction_pct) := rfl
    rw [h2, hz]
    exact decide_eq_false (by norm_num)
  · norm_num [compare_metrics, extract_metrics]

theorem c10_zero_baseline_reduction_fails_witness :
    (extract_metrics (Report.mk [])).duplicated_tokens = 0 ∧
    (compare_metrics (extract_metrics (Report.mk []))
        (extract_metrics (Report.mk []))).token_reduction_pct = 0 :=
  ⟨rfl, (c10_zero_baseline_reduction_fails.1 (extract_metrics (Report.mk []))
    (extract_metrics (Report.mk [])) rfl).1⟩

end CompareReports
